import Mathlib

/-!
# LED Wand: shallow embedding of `src/led_wand.c`

This file embeds the core program of the repository — the motion-edge
detector (`ISR`), the busy-wait `delay`, the display sequencer
(`runLEDSequence` and the `main` dispatch loop), and the message encoder
(`convertMessageStringToSegments`) — as executable Lean definitions, and
proves properties of them.

Modelling conventions:
* Characters are their byte values, as in the C source where
  `messageString` is `unsigned char[]` (`'A'` = 65 … `'Z'` = 90,
  `' '` = 32).
* Machine integers are modelled by `Nat`/`Int`.  The elapsed-tick reading
  `int duration = TMR1L + (256 * TMR1H)` computes in the target's 16-bit
  signed `int`: for raw TMR1 readings 32768–65535 it wraps negative
  (`duration16`), and both debounce comparisons are then false, so the
  edge is ignored.
* The C expression `duration / (2.4 * lengthOfMessage)` computes in
  floating point and truncates on assignment to `int`; both operands are
  nonnegative, so truncation is the floor.  It is modelled with exact
  arithmetic: `2.4 = 12/5`, so the value is `(5 * duration) / (12 * n)`
  in natural-number division.
* The global array `unsigned char letterSegments[35]` is modelled by its
  write trace: the encoder produces the ordered list of `(index, value)`
  stores the C loop performs, and the array contents are obtained by
  replaying that trace over the zero-initialized global.
-/

namespace LEDWand

/-! ## Shared state (the C globals shared between the ISR and `main`) -/

/-- The mutable globals of `led_wand.c` that the interrupt context and the
main loop share: `timePerSegment`, `delayingVariable`, `isSequenceRunning`,
the TMR1 tick counter, and `lengthOfMessage` (the number of segments set up
by the encoder). -/
structure WandState where
  timePerSegment : Int
  delayingVariable : Int
  isSequenceRunning : Bool
  tmr1 : Nat
  lengthOfMessage : Nat
deriving DecidableEq, Repr

/-! ## MotionEdgeDetector: the interrupt service routine -/

/-- The value of `int duration = TMR1L + (256 * TMR1H)` (line 168) for a
raw 16-bit TMR1 reading: the sum is computed in the target's 16-bit
signed `int`, so readings 32768–65535 wrap to negative values
(two's complement). -/
def duration16 (raw : Nat) : Int :=
  if raw % 65536 < 32768 then ((raw % 65536 : Nat) : Int)
  else ((raw % 65536 : Nat) : Int) - 65536

/-- The interrupt service routine of `led_wand.c` (lines 132–215).
`c1out` is the comparator output at the edge: `false` (`C1OUT == 0`)
means rightward acceleration, a falling / swing-end edge; `true`
(`C1OUT == 1`) means leftward acceleration, a rising / swing-start edge.
`duration` is the 16-bit signed reading of TMR1 (`st.tmr1`).  A falling
edge with `duration > 14000` zeroes `timePerSegment`, sets
`delayingVariable := 1` and resets TMR1; a rising edge with
`duration > 1500` sets
`timePerSegment := duration / (2.4 * lengthOfMessage)` (the `double` math
truncates the exact quotient, and `duration` is positive in this branch:
`(5 * duration) / (12 * n)` in natural division); any other edge —
including any reading whose signed `duration` is negative — changes
nothing. -/
def ISR (c1out : Bool) (st : WandState) : WandState :=
  let duration := duration16 st.tmr1
  if c1out = false then
    if 14000 < duration then
      { st with timePerSegment := 0, delayingVariable := 1, tmr1 := 0 }
    else st
  else
    if 1500 < duration then
      { st with
          timePerSegment := ((5 * duration.toNat) / (12 * st.lengthOfMessage) : Nat),
          isSequenceRunning := true,
          tmr1 := 0 }
    else st

/-- On readings up to 32767 the 16-bit signed duration is the raw count. -/
lemma duration16_eq_of_le (raw : Nat) (h : raw ≤ 32767) : duration16 raw = raw := by
  unfold duration16
  rw [Nat.mod_eq_of_lt (show raw < 65536 by omega)]
  rw [if_pos (show raw < 32768 by omega)]

/-- Number of iterations the busy-wait loop in `delay` (lines 234–236)
still performs when `delayingVariable` currently holds `v`: the loop
repeats while `delayingVariable > 0`, decrementing each time. -/
def delayIterations (v : Int) : Nat :=
  if 0 < v then delayIterations (v - 1) + 1 else 0
termination_by v.toNat
decreasing_by omega

/-! ## DisplaySequencer: `runLEDSequence` and the `main` dispatch loop -/

/-- One observable action of the sequencer: a write of a pattern to PORTC,
or a busy-wait of `delay(ticks)`. -/
inductive Event where
  | out : Nat → Event
  | wait : Int → Event
deriving DecidableEq, Repr

/-- Trace of the `for (int i = lengthOfMessage - 1; i >= 0; i--)` loop in
`runLEDSequence` (lines 221–224): with `n` segments left it outputs
`segs (n-1)`, delays `tps`, and recurses. -/
def runFrames (segs : Nat → Nat) (tps : Int) : Nat → List Event
  | 0 => []
  | n + 1 => .out (segs n) :: .wait tps :: runFrames segs tps n

/-- Full observable trace of `runLEDSequence` (lines 220–228): the loop's
trace followed by the final `PORTC = 0`. -/
def runLEDSequenceTrace (segs : Nat → Nat) (n : Nat) (tps : Int) : List Event :=
  runFrames segs tps n ++ [.out 0]

/-- Final value of `delayingVariable` after `delay(tps)` returns: the for
loop initializes it to `tps` and decrements while positive. -/
def delayFinal (tps : Int) : Int :=
  if 0 < tps then 0 else tps

/-- One check of the `while (1)` loop in `main` (lines 119–124): when
`isSequenceRunning` is set, `runLEDSequence()` runs to completion and the
flag is cleared; otherwise nothing happens.  Returns the emitted trace and
the state afterwards. -/
def mainStep (segs : Nat → Nat) (st : WandState) : List Event × WandState :=
  if st.isSequenceRunning then
    (runLEDSequenceTrace segs st.lengthOfMessage st.timePerSegment,
     { st with
         isSequenceRunning := false,
         delayingVariable :=
           if st.lengthOfMessage = 0 then st.delayingVariable
           else delayFinal st.timePerSegment })
  else ([], st)

/-! ## FontEncoder: `convertMessageStringToSegments` -/

/-- The glyph table of the `switch` in `convertMessageStringToSegments`
(lines 257–412): the three stroke bytes stored for each uppercase letter
(byte values `'A'` = 65 … `'Z'` = 90); `none` for every byte the switch
has no letter case for. -/
def letterTriple : Nat → Option (Nat × Nat × Nat)
  | 65 => some (0b11111111, 0b00001001, 0b11111111)
  | 66 => some (0b11111111, 0b10010000, 0b11110000)
  | 67 => some (0b11111111, 0b10000001, 0b10000001)
  | 68 => some (0b11110000, 0b10010000, 0b11111111)
  | 69 => some (0b11111111, 0b10010001, 0b10010001)
  | 70 => some (0b11111111, 0b00001001, 0b00001001)
  | 71 => some (0b11111111, 0b10010001, 0b11110001)
  | 72 => some (0b11111111, 0b00001000, 0b11111111)
  | 73 => some (0b10000001, 0b11111111, 0b10000001)
  | 74 => some (0b10000001, 0b11111111, 0b00000001)
  | 75 => some (0b11111111, 0b00100100, 0b01000010)
  | 76 => some (0b11111111, 0b10000000, 0b10000000)
  | 77 => some (0b11111111, 0b00001111, 0b11111111)
  | 78 => some (0b11111111, 0b00000001, 0b11111111)
  | 79 => some (0b11111111, 0b10000001, 0b11111111)
  | 80 => some (0b11111111, 0b00001001, 0b00001111)
  | 81 => some (0b00111111, 0b01100001, 0b10111111)
  | 82 => some (0b11110000, 0b00010000, 0b00010000)
  | 83 => some (0b10011111, 0b10010001, 0b11110001)
  | 84 => some (0b00001000, 0b11111111, 0b00001000)
  | 85 => some (0b11111111, 0b10000000, 0b11111111)
  | 86 => some (0b01100000, 0b10000000, 0b01100000)
  | 87 => some (0b11111111, 0b11110000, 0b11111111)
  | 88 => some (0b11000011, 0b00111100, 0b11000011)
  | 89 => some (0b00001111, 0b11111000, 0b00001111)
  | 90 => some (0b11100001, 0b10011001, 0b10000111)
  | _ => none

/-- A single store `letterSegments[index] = value`. -/
abbrev Store := Nat × Nat

/-- Stores and index advance of the `switch` body for one character `c`
when `indexOfLetterSegments = idx`: the `' '` case (lines 250–254) stores
zero twice into the SAME slot and advances by 2; a letter case stores its
three stroke bytes at `idx`, `idx+1`, `idx+2` and advances by 3; a byte
with no case stores nothing and does not advance. -/
def charStores (idx : Nat) (c : Nat) : List Store × Nat :=
  if c = 32 then
    ([(idx, 0), (idx, 0)], idx + 2)
  else
    match letterTriple c with
    | some (r0, r1, r2) => ([(idx, r0), (idx + 1, r1), (idx + 2, r2)], idx + 3)
    | none => ([], idx)

/-- Stores and index advance of the spacer step after the `switch`
(lines 415–417): zero is stored twice into the SAME slot `idx`, then the
index advances by 2. -/
def spacerStores (idx : Nat) : List Store × Nat :=
  ([(idx, 0), (idx, 0)], idx + 2)

/-- One full iteration of the encoder loop (lines 245–418): the switch
body for `c` followed by the spacer. -/
def stepStores (idx : Nat) (c : Nat) : List Store × Nat :=
  let g := charStores idx c
  let s := spacerStores g.2
  (g.1 ++ s.1, s.2)

/-- The whole encoder loop starting at index `idx`: ordered store trace
and final `indexOfLetterSegments`. -/
def encodeFrom (idx : Nat) : List Nat → List Store × Nat
  | [] => ([], idx)
  | c :: cs =>
    let s := stepStores idx c
    let r := encodeFrom s.2 cs
    (s.1 ++ r.1, r.2)

/-- Ordered trace of all stores into `letterSegments` performed by
`convertMessageStringToSegments` on message `msg`. -/
def encodeStores (msg : List Nat) : List Store :=
  (encodeFrom 0 msg).1

/-- The value `lengthOfMessage` is set to at line 421. -/
def segmentCount (msg : List Nat) : Nat :=
  (encodeFrom 0 msg).2

/-- Replay a store trace over array contents `a`. -/
def applyStores (a : Nat → Nat) (ws : List Store) : Nat → Nat :=
  ws.foldl (fun f w => Function.update f w.1 w.2) a

/-- Result of one run of `convertMessageStringToSegments`: the array
contents and `lengthOfMessage`. -/
structure EncResult where
  arr : Nat → Nat
  len : Nat

/-- `convertMessageStringToSegments` (lines 240–422) run on message `msg`
with prior array contents `a`. -/
def convertMessageStringToSegments (msg : List Nat) (a : Nat → Nat) : EncResult :=
  ⟨applyStores a (encodeStores msg), segmentCount msg⟩

/-- Contents of the `letterSegments` array after the startup run of the
encoder: the global is zero-initialized, then the store trace is replayed. -/
def letterSegments (msg : List Nat) : Nat → Nat :=
  applyStores (fun _ => 0) (encodeStores msg)

/-- The value of the last store to slot `j` in a trace, if any. -/
def lastVal : List Store → Nat → Option Nat
  | [], _ => none
  | w :: ws, j =>
    match lastVal ws j with
    | some v => some v
    | none => if w.1 = j then some w.2 else none

/-! ## Store-trace replay lemmas -/

lemma applyStores_cons (a : Nat → Nat) (w : Store) (ws : List Store) :
    applyStores a (w :: ws) = applyStores (Function.update a w.1 w.2) ws := rfl

/-- Replaying a trace reads back the last store to each slot, or the prior
contents when the slot was never stored to. -/
lemma applyStores_apply (a : Nat → Nat) (ws : List Store) (j : Nat) :
    applyStores a ws j = (lastVal ws j).getD (a j) := by
  induction ws generalizing a with
  | nil => rfl
  | cons w ws ih =>
    rw [applyStores_cons, ih]
    rcases hw : lastVal ws j with _ | v
    · simp only [lastVal, hw, Function.update_apply]
      by_cases hj : w.1 = j
      · subst hj; simp
      · simp [hj, Ne.symm hj]
    · simp [lastVal, hw]

lemma lastVal_append (ws1 ws2 : List Store) (j : Nat) :
    lastVal (ws1 ++ ws2) j =
      match lastVal ws2 j with
      | some v => some v
      | none => lastVal ws1 j := by
  induction ws1 with
  | nil => simp only [List.nil_append]; cases lastVal ws2 j <;> rfl
  | cons w ws ih =>
    show (match lastVal (ws ++ ws2) j with
          | some v => some v
          | none => if w.1 = j then some w.2 else none) =
         (match lastVal ws2 j with
          | some v => some v
          | none =>
            match lastVal ws j with
            | some v => some v
            | none => if w.1 = j then some w.2 else none)
    rw [ih]
    cases lastVal ws2 j <;> cases lastVal ws j <;> rfl

lemma lastVal_eq_none (ws : List Store) (j : Nat) (h : ∀ w ∈ ws, w.1 ≠ j) :
    lastVal ws j = none := by
  induction ws with
  | nil => rfl
  | cons w ws ih =>
    simp only [lastVal, ih (fun x hx => h x (List.mem_cons_of_mem _ hx))]
    simp [h w (List.mem_cons_self w ws)]

/-! ## Shape of one encoder-loop iteration -/

/-- The three possible outcomes of one iteration of the encoder loop at
index `idx`: a letter stores its three stroke bytes and the spacer's two
stores (both to slot `idx + 3`) and advances by 5; a space stores zero
twice to slot `idx` and twice to slot `idx + 2`, advancing by 4; any other
byte gets only the spacer's two stores to slot `idx`, advancing by 2. -/
lemma stepStores_cases (idx c : Nat) :
    (∃ r0 r1 r2, letterTriple c = some (r0, r1, r2) ∧
      stepStores idx c =
        ([(idx, r0), (idx + 1, r1), (idx + 2, r2), (idx + 3, 0), (idx + 3, 0)], idx + 5)) ∨
    (c = 32 ∧ stepStores idx c =
        ([(idx, 0), (idx, 0), (idx + 2, 0), (idx + 2, 0)], idx + 4)) ∨
    (c ≠ 32 ∧ letterTriple c = none ∧
      stepStores idx c = ([(idx, 0), (idx, 0)], idx + 2)) := by
  by_cases h32 : c = 32
  · exact Or.inr (Or.inl ⟨h32, by simp [stepStores, charStores, spacerStores, h32]⟩)
  · rcases hl : letterTriple c with _ | ⟨r0, r1, r2⟩
    · exact Or.inr (Or.inr ⟨h32, rfl, by simp [stepStores, charStores, spacerStores, h32, hl]⟩)
    · exact Or.inl ⟨r0, r1, r2, rfl, by simp [stepStores, charStores, spacerStores, h32, hl]⟩

lemma stepStores_idx_le (idx c : Nat) : idx ≤ (stepStores idx c).2 := by
  rcases stepStores_cases idx c with ⟨r0, r1, r2, _, h⟩ | ⟨_, h⟩ | ⟨_, _, h⟩ <;>
    rw [h] <;> omega

lemma stepStores_idx_le_add (idx c : Nat) : (stepStores idx c).2 ≤ idx + 5 := by
  rcases stepStores_cases idx c with ⟨r0, r1, r2, _, h⟩ | ⟨_, h⟩ | ⟨_, _, h⟩ <;>
    rw [h] <;> omega

lemma stepStores_mem (idx c : Nat) :
    ∀ w ∈ (stepStores idx c).1, idx ≤ w.1 ∧ w.1 < (stepStores idx c).2 := by
  rcases stepStores_cases idx c with ⟨r0, r1, r2, _, h⟩ | ⟨_, h⟩ | ⟨_, _, h⟩ <;>
    rw [h] <;> intro w hw <;> simp only [List.mem_cons, List.not_mem_nil, or_false] at hw <;>
    rcases hw with rfl | rfl | rfl | rfl | rfl <;> simp

/-! ## Whole-loop decomposition and bounds -/

lemma encodeFrom_append (i : Nat) (xs ys : List Nat) :
    encodeFrom i (xs ++ ys) =
      ((encodeFrom i xs).1 ++ (encodeFrom (encodeFrom i xs).2 ys).1,
       (encodeFrom (encodeFrom i xs).2 ys).2) := by
  induction xs generalizing i with
  | nil => simp [encodeFrom]
  | cons c cs ih =>
    simp only [List.cons_append, encodeFrom]
    simp [ih, List.append_assoc]

lemma encodeFrom_idx_le (i : Nat) (ms : List Nat) : i ≤ (encodeFrom i ms).2 := by
  induction ms generalizing i with
  | nil => simp [encodeFrom]
  | cons c cs ih =>
    simp only [encodeFrom]
    exact le_trans (stepStores_idx_le i c) (ih _)

lemma encodeFrom_idx_le_add (i : Nat) (ms : List Nat) :
    (encodeFrom i ms).2 ≤ i + 5 * ms.length := by
  induction ms generalizing i with
  | nil => simp [encodeFrom]
  | cons c cs ih =>
    simp only [encodeFrom, List.length_cons]
    calc (encodeFrom (stepStores i c).2 cs).2
        ≤ (stepStores i c).2 + 5 * cs.length := ih _
      _ ≤ i + 5 + 5 * cs.length := by
          have := stepStores_idx_le_add i c; omega
      _ = i + 5 * (cs.length + 1) := by ring

lemma encodeFrom_mem (i : Nat) (ms : List Nat) :
    ∀ w ∈ (encodeFrom i ms).1, i ≤ w.1 ∧ w.1 < (encodeFrom i ms).2 := by
  induction ms generalizing i with
  | nil => simp [encodeFrom]
  | cons c cs ih =>
    intro w hw
    simp only [encodeFrom, List.mem_append] at hw ⊢
    rcases hw with hw | hw
    · have h1 := stepStores_mem i c w hw
      have h2 := encodeFrom_idx_le (stepStores i c).2 cs
      exact ⟨h1.1, lt_of_lt_of_le h1.2 h2⟩
    · have h1 := ih _ w hw
      have h2 := stepStores_idx_le i c
      exact ⟨le_trans h2 h1.1, h1.2⟩

/-! ## Bridging lemmas for the glyph table -/

/-- Every byte outside `'A'`(65)–`'Z'`(90) falls through the letter cases
of the switch. -/
lemma letterTriple_eq_none (c : Nat) (h : ¬(65 ≤ c ∧ c ≤ 90)) :
    letterTriple c = none := by
  unfold letterTriple
  split <;> first | rfl | omega

/-- Every byte in `'A'`(65)–`'Z'`(90) has a letter case in the switch. -/
lemma letterTriple_isSome (c : Nat) (h1 : 65 ≤ c) (h2 : c ≤ 90) :
    (letterTriple c).isSome := by
  interval_cases c <;> rfl

/-- Every stroke byte of every letter case of the switch is nonzero. -/
lemma letterTriple_pos (c r0 r1 r2 : Nat)
    (h : letterTriple c = some (r0, r1, r2)) : 0 < r0 ∧ 0 < r1 ∧ 0 < r2 := by
  unfold letterTriple at h
  split at h <;> first | (cases h; exact ⟨by norm_num, by norm_num, by norm_num⟩) | cases h

/-- The Nat-division form of the update matches truncating the exact
quotient `t / (2.4 · n)`. -/
lemma framePeriod_eq_floor (t n : Nat) :
    ((5 * t) / (12 * n) : Nat) = ⌊(t : ℚ) / (2.4 * n)⌋₊ := by
  have h : (t : ℚ) / (2.4 * n) = (((5 * t : Nat) : ℚ)) / (((12 * n : Nat) : ℚ)) := by
    push_cast; ring_nf
  rw [h, Nat.floor_div_nat, Nat.floor_natCast]

/-! ## Claims about the MotionEdgeDetector -/

/-- **C1 counterexample.** The claim that EVERY rising edge with elapsed
ticks `t > 1500` (and `n > 0`) is validated is false: at the reachable
TMR1 reading `t = 40000` the 16-bit signed `duration` wraps to
`-25536`, so `duration > 1500` is false and the edge is ignored — no
validation, no state change. -/
theorem ISR_start_ignored_when_wrapped :
    duration16 40000 = -25536 ∧
    ISR true ⟨100, 0, false, 40000, 10⟩ = ⟨100, 0, false, 40000, 10⟩ := by
  constructor
  · rfl
  · decide

/-- **C1 amended.** A rising (swing-start, `C1OUT = 1`) edge with elapsed
ticks `1500 < t ≤ 32767` (the positive range of the 16-bit signed
`duration`) and frame count `n > 0` is validated: `timePerSegment` becomes
`t / (2.4 · n)` truncated to an integer, `isSequenceRunning` becomes true,
and TMR1 is reset to zero (all other state is kept); in particular
`t = 3600`, `n = 10` yields `timePerSegment = 150`. -/
theorem ISR_validated_start (st : WandState) (h : 1500 < st.tmr1)
    (hw : st.tmr1 ≤ 32767) (hn : 0 < st.lengthOfMessage) :
    ISR true st =
      { st with
          timePerSegment := (⌊(st.tmr1 : ℚ) / (2.4 * st.lengthOfMessage)⌋₊ : Nat),
          isSequenceRunning := true,
          tmr1 := 0 } ∧
    (⌊((3600 : Nat) : ℚ) / (2.4 * (10 : Nat))⌋₊ : Nat) = 150 := by
  constructor
  · rw [ISR]
    rw [duration16_eq_of_le st.tmr1 hw]
    simp only [Bool.true_eq_false, if_false, Int.toNat_natCast]
    rw [if_pos (by exact_mod_cast h)]
    rw [framePeriod_eq_floor]
  · rw [← framePeriod_eq_floor]

/-- Witness for C1 at `t = 3600`, `n = 10`. -/
theorem ISR_validated_start_witness :
    ISR true ⟨100, 0, false, 3600, 10⟩ = ⟨150, 0, true, 0, 10⟩ := by
  have h := (ISR_validated_start ⟨100, 0, false, 3600, 10⟩
    (by norm_num) (by norm_num) (by norm_num)).1
  rw [h, ← framePeriod_eq_floor]
  rfl

/-- **C2.** An edge at or below its debounce threshold (`≤ 14000` for a
falling / swing-end edge, `≤ 1500` for a rising / swing-start edge)
changes no state at all: `timePerSegment`, `isSequenceRunning`,
`delayingVariable` and the TMR1 counter are all unchanged. -/
theorem ISR_debounce (c1out : Bool) (st : WandState)
    (h : (c1out = false ∧ st.tmr1 ≤ 14000) ∨ (c1out = true ∧ st.tmr1 ≤ 1500)) :
    ISR c1out st = st := by
  rcases h with ⟨hc, ht⟩ | ⟨hc, ht⟩ <;> subst hc <;>
    rw [ISR, duration16_eq_of_le st.tmr1 (by omega)] <;> simp <;> omega

/-- Witness for C2: a falling edge at exactly the 14000 threshold. -/
theorem ISR_debounce_witness :
    ISR false ⟨100, 0, false, 14000, 10⟩ = ⟨100, 0, false, 14000, 10⟩ :=
  ISR_debounce false ⟨100, 0, false, 14000, 10⟩ (Or.inl ⟨rfl, by norm_num⟩)

/-- **C3 counterexample.** The claim that EVERY falling edge with elapsed
ticks `t > 14000` is validated as an end trigger is false: at the
reachable TMR1 reading `t = 40000` the 16-bit signed `duration` wraps to
`-25536`, so `duration > 14000` is false and the edge is ignored —
`timePerSegment` is not zeroed, `delayingVariable` is not forced, the
counter is not reset. -/
theorem ISR_end_ignored_when_wrapped :
    duration16 40000 = -25536 ∧
    ISR false ⟨100, 55, true, 40000, 10⟩ = ⟨100, 55, true, 40000, 10⟩ := by
  constructor
  · rfl
  · decide

/-- **C3 amended.** A falling (swing-end, `C1OUT = 0`) edge with elapsed
ticks `14000 < t ≤ 32767` (the positive range of the 16-bit signed
`duration`) is validated as an end trigger: `timePerSegment` becomes 0,
`delayingVariable` is forced to 1 — so the busy-wait loop in `delay` has
exactly one iteration left, after which its next check exits — and TMR1 is
reset to zero; nothing else changes (in particular `isSequenceRunning`
keeps its prior value). -/
theorem ISR_validated_end (st : WandState) (h : 14000 < st.tmr1)
    (hw : st.tmr1 ≤ 32767) :
    ISR false st =
      { st with timePerSegment := 0, delayingVariable := 1, tmr1 := 0 } ∧
    delayIterations 1 = 1 := by
  refine ⟨?_, ?_⟩
  · rw [ISR]
    rw [duration16_eq_of_le st.tmr1 hw]
    rw [if_pos (show (14000 : Int) < (st.tmr1 : Int) by exact_mod_cast h)]
    simp
  · rw [delayIterations, delayIterations]
    norm_num

/-- Witness for C3 at `t = 14001`. -/
theorem ISR_validated_end_witness :
    ISR false ⟨100, 55, true, 14001, 10⟩ = ⟨0, 1, true, 0, 10⟩ ∧
    delayIterations 1 = 1 :=
  ISR_validated_end ⟨100, 55, true, 14001, 10⟩ (by norm_num) (by norm_num)

/-! ## Per-character window of the encoded array -/

/-- In the array encoded from `pre ++ c :: rest`, a slot `p` inside the
index window that character `c`'s loop iteration occupies is determined by
that iteration's stores alone: the earlier characters only store below the
window and the later ones only store above it. -/
lemma letterSegments_char_window (pre rest : List Nat) (c p : Nat)
    (hp1 : (encodeFrom 0 pre).2 ≤ p)
    (hp2 : p < (stepStores (encodeFrom 0 pre).2 c).2) :
    letterSegments (pre ++ c :: rest) p =
      (lastVal (stepStores (encodeFrom 0 pre).2 c).1 p).getD 0 := by
  have hC : lastVal (encodeFrom (stepStores (encodeFrom 0 pre).2 c).2 rest).1 p = none := by
    apply lastVal_eq_none
    intro w hw
    have := (encodeFrom_mem _ rest w hw).1
    omega
  have hA : lastVal (encodeFrom 0 pre).1 p = none := by
    apply lastVal_eq_none
    intro w hw
    have := (encodeFrom_mem 0 pre w hw).2
    omega
  rw [letterSegments, encodeStores, encodeFrom_append]
  simp only [encodeFrom]
  rw [applyStores_apply, lastVal_append, lastVal_append, hC, hA]
  cases lastVal (stepStores (encodeFrom 0 pre).2 c).1 p <;> rfl

/-- Index reached after encoding `pre ++ [c]` equals the index after `pre`
advanced by `c`'s own step. -/
lemma encodeFrom_snoc (pre : List Nat) (c : Nat) :
    (encodeFrom 0 (pre ++ [c])).2 = (stepStores (encodeFrom 0 pre).2 c).2 := by
  rw [encodeFrom_append]
  simp [encodeFrom]

/-- Shared helper: the window a letter occupies — its three stroke bytes,
the two zero spacer slots after them, and the index advance of 5. -/
lemma letter_window (pre rest : List Nat) (c : Nat) (h1 : 65 ≤ c) (h2 : c ≤ 90) :
    ∃ r0 r1 r2, letterTriple c = some (r0, r1, r2) ∧
      letterSegments (pre ++ c :: rest) (encodeFrom 0 pre).2 = r0 ∧
      letterSegments (pre ++ c :: rest) ((encodeFrom 0 pre).2 + 1) = r1 ∧
      letterSegments (pre ++ c :: rest) ((encodeFrom 0 pre).2 + 2) = r2 ∧
      letterSegments (pre ++ c :: rest) ((encodeFrom 0 pre).2 + 3) = 0 ∧
      letterSegments (pre ++ c :: rest) ((encodeFrom 0 pre).2 + 4) = 0 ∧
      (encodeFrom 0 (pre ++ [c])).2 = (encodeFrom 0 pre).2 + 5 := by
  rcases stepStores_cases (encodeFrom 0 pre).2 c with
    ⟨r0, r1, r2, hl, hs⟩ | ⟨h32, _⟩ | ⟨_, hnone, _⟩
  · refine ⟨r0, r1, r2, hl, ?_, ?_, ?_, ?_, ?_, ?_⟩
    · rw [letterSegments_char_window pre rest c _ le_rfl (by rw [hs]; omega), hs]
      simp [lastVal]
    · rw [letterSegments_char_window pre rest c _ (by omega) (by rw [hs]; omega), hs]
      simp [lastVal]
    · rw [letterSegments_char_window pre rest c _ (by omega) (by rw [hs]; omega), hs]
      simp [lastVal]
    · rw [letterSegments_char_window pre rest c _ (by omega) (by rw [hs]; omega), hs]
      simp [lastVal]
    · rw [letterSegments_char_window pre rest c _ (by omega) (by rw [hs]; omega), hs]
      simp [lastVal]
    · rw [encodeFrom_snoc, hs]
  · omega
  · have := letterTriple_isSome c h1 h2
    rw [hnone] at this
    cases this

/-- Shared helper: the window a space occupies — four zero slots and the
index advance of 4. -/
lemma space_window (pre rest : List Nat) (c : Nat) (h32 : c = 32) :
    letterSegments (pre ++ c :: rest) (encodeFrom 0 pre).2 = 0 ∧
    letterSegments (pre ++ c :: rest) ((encodeFrom 0 pre).2 + 1) = 0 ∧
    letterSegments (pre ++ c :: rest) ((encodeFrom 0 pre).2 + 2) = 0 ∧
    letterSegments (pre ++ c :: rest) ((encodeFrom 0 pre).2 + 3) = 0 ∧
    (encodeFrom 0 (pre ++ [c])).2 = (encodeFrom 0 pre).2 + 4 := by
  rcases stepStores_cases (encodeFrom 0 pre).2 c with
    ⟨r0, r1, r2, hl, _⟩ | ⟨_, hs⟩ | ⟨hne, _, _⟩
  · rw [h32] at hl
    cases hl
  · refine ⟨?_, ?_, ?_, ?_, ?_⟩
    · rw [letterSegments_char_window pre rest c _ le_rfl (by rw [hs]; omega), hs]
      simp [lastVal]
    · rw [letterSegments_char_window pre rest c _ (by omega) (by rw [hs]; omega), hs]
      simp [lastVal]
    · rw [letterSegments_char_window pre rest c _ (by omega) (by rw [hs]; omega), hs]
      simp [lastVal]
    · rw [letterSegments_char_window pre rest c _ (by omega) (by rw [hs]; omega), hs]
      simp [lastVal]
    · rw [encodeFrom_snoc, hs]
  · exact absurd h32 hne

/-! ## Claims about the FontEncoder -/

/-- **C4.** Wherever a supported letter `'A'`–`'Z'` (byte 65–90) occurs in
the message, the encoder lays down exactly its 3 stroke frames followed by
exactly 2 zero frames, advancing the frame index by 5; and wherever `' '`
(byte 32) occurs, it lays down 2 all-zero glyph frames followed by the
2-frame zero spacer — 4 zero frames — advancing the index by 4.  Character
order is preserved: each character's frames start at the index its prefix
ends at. -/
theorem encode_letter_and_space (pre rest : List Nat) (c : Nat) :
    (65 ≤ c → c ≤ 90 →
      ∃ r0 r1 r2, letterTriple c = some (r0, r1, r2) ∧
        letterSegments (pre ++ c :: rest) (encodeFrom 0 pre).2 = r0 ∧
        letterSegments (pre ++ c :: rest) ((encodeFrom 0 pre).2 + 1) = r1 ∧
        letterSegments (pre ++ c :: rest) ((encodeFrom 0 pre).2 + 2) = r2 ∧
        letterSegments (pre ++ c :: rest) ((encodeFrom 0 pre).2 + 3) = 0 ∧
        letterSegments (pre ++ c :: rest) ((encodeFrom 0 pre).2 + 4) = 0 ∧
        (encodeFrom 0 (pre ++ [c])).2 = (encodeFrom 0 pre).2 + 5) ∧
    (c = 32 →
      letterSegments (pre ++ c :: rest) (encodeFrom 0 pre).2 = 0 ∧
      letterSegments (pre ++ c :: rest) ((encodeFrom 0 pre).2 + 1) = 0 ∧
      letterSegments (pre ++ c :: rest) ((encodeFrom 0 pre).2 + 2) = 0 ∧
      letterSegments (pre ++ c :: rest) ((encodeFrom 0 pre).2 + 3) = 0 ∧
      (encodeFrom 0 (pre ++ [c])).2 = (encodeFrom 0 pre).2 + 4) :=
  ⟨fun h1 h2 => letter_window pre rest c h1 h2,
   fun h32 => space_window pre rest c h32⟩

/-- Witness for C4: `'H'` (72) as the only character, and `' '` (32) as
the only character. -/
theorem encode_letter_and_space_witness :
    (∃ r0 r1 r2, letterTriple 72 = some (r0, r1, r2) ∧
      letterSegments [72] 0 = r0 ∧
      letterSegments [72] 1 = r1 ∧
      letterSegments [72] 2 = r2 ∧
      letterSegments [72] 3 = 0 ∧
      letterSegments [72] 4 = 0 ∧
      (encodeFrom 0 [(72 : Nat)]).2 = 5) ∧
    (letterSegments [32] 0 = 0 ∧
      letterSegments [32] 1 = 0 ∧
      letterSegments [32] 2 = 0 ∧
      letterSegments [32] 3 = 0 ∧
      (encodeFrom 0 [(32 : Nat)]).2 = 4) :=
  ⟨(encode_letter_and_space [] [] 72).1 (by norm_num) (by norm_num),
   (encode_letter_and_space [] [] 32).2 rfl⟩

/-- **C5.** Wherever an unsupported byte (neither `' '` = 32 nor a letter
65–90) occurs in the message, the encoder's switch stores nothing for the
glyph (`charStores` is empty) and only the 2-frame zero spacer is laid
down: the two slots at the character's window are zero in the final array
and the index advances by exactly 2. -/
theorem encode_unsupported_spacer (pre rest : List Nat) (c : Nat)
    (h32 : c ≠ 32) (hl : ¬(65 ≤ c ∧ c ≤ 90)) :
    charStores (encodeFrom 0 pre).2 c = ([], (encodeFrom 0 pre).2) ∧
    letterSegments (pre ++ c :: rest) (encodeFrom 0 pre).2 = 0 ∧
    letterSegments (pre ++ c :: rest) ((encodeFrom 0 pre).2 + 1) = 0 ∧
    (encodeFrom 0 (pre ++ [c])).2 = (encodeFrom 0 pre).2 + 2 := by
  have hnone := letterTriple_eq_none c hl
  rcases stepStores_cases (encodeFrom 0 pre).2 c with
    ⟨r0, r1, r2, hsome, _⟩ | ⟨h32', _⟩ | ⟨_, _, hs⟩
  · rw [hnone] at hsome
    cases hsome
  · exact absurd h32' h32
  · refine ⟨?_, ?_, ?_, ?_⟩
    · rw [charStores, if_neg h32, hnone]
    · rw [letterSegments_char_window pre rest c _ le_rfl (by rw [hs]; omega), hs]
      simp [lastVal]
    · rw [letterSegments_char_window pre rest c _ (by omega) (by rw [hs]; omega), hs]
      simp [lastVal]
    · rw [encodeFrom_snoc, hs]

/-- Witness for C5: `'?'` (63) as the only character. -/
theorem encode_unsupported_spacer_witness :
    charStores 0 63 = ([], 0) ∧
    letterSegments [63] 0 = 0 ∧
    letterSegments [63] 1 = 0 ∧
    (encodeFrom 0 [(63 : Nat)]).2 = 2 :=
  encode_unsupported_spacer [] [] 63 (by norm_num) (by omega)

/-- **C6 counterexample.** The claim that an unsupported character appends
nothing at all — no stores and no index advance — is false: for the
one-character message `"?"` (byte 63) the encoder performs the spacer's
two stores and advances the index to 2, not 0. -/
theorem encode_unsupported_not_silent :
    ¬ (encodeStores [63] = [] ∧ segmentCount [63] = 0) := by
  decide

/-- **C6 amended.** Wherever an unsupported byte occurs, the encoder's
switch body stores nothing (no stroke frames), but the spacer step after
the switch still runs: exactly the 2-frame zero spacer is appended and the
frame index advances by 2 for that character. -/
theorem encode_unsupported_step (i c : Nat)
    (h32 : c ≠ 32) (hl : ¬(65 ≤ c ∧ c ≤ 90)) :
    charStores i c = ([], i) ∧
    stepStores i c = ([(i, 0), (i, 0)], i + 2) := by
  have hnone := letterTriple_eq_none c hl
  refine ⟨?_, ?_⟩
  · rw [charStores, if_neg h32, hnone]
  · rcases stepStores_cases i c with ⟨r0, r1, r2, hsome, _⟩ | ⟨h32', _⟩ | ⟨_, _, hs⟩
    · rw [hnone] at hsome
      cases hsome
    · exact absurd h32' h32
    · exact hs

/-- Witness for the amended C6 at `i = 0`, `c = '?'` (63). -/
theorem encode_unsupported_step_witness :
    charStores 0 63 = ([], 0) ∧ stepStores 0 63 = ([(0, 0), (0, 0)], 2) :=
  encode_unsupported_step 0 63 (by norm_num) (by omega)

/-- **C8 counterexample.** A message of 8 letters is within the stated
9-character maximum, yet encoding it stores beyond the 35-entry
`letterSegments` array: the claim that every written index is `< 35` fails
for `"AAAAAAAA"` (8 × byte 65), whose last iteration stores at indices
35–38. -/
theorem encode_bounds_fails_at_eight :
    (List.replicate 8 65).length ≤ 9 ∧
    ¬ (∀ w ∈ encodeStores (List.replicate 8 65), w.1 < 35) := by
  decide

/-- **C8 amended.** For every message of at most 7 characters, encoding
writes only within the bounds of the 35-entry frame storage: every index
stored to is less than 35 (each character advances the index by at most 5
and every store lands below the final index). -/
theorem encode_within_bounds (msg : List Nat) (h : msg.length ≤ 7) :
    ∀ w ∈ encodeStores msg, w.1 < 35 := by
  intro w hw
  have h1 := (encodeFrom_mem 0 msg w hw).2
  have h2 := encodeFrom_idx_le_add 0 msg
  omega

/-- Witness for the amended C8: the program's own 6-character message
`"SAHOTA"` stays within bounds. -/
theorem encode_within_bounds_witness :
    (encodeStores [83, 65, 72, 79, 84, 65]).all (fun w => decide (w.1 < 35)) = true := by
  rw [List.all_eq_true]
  intro w hw
  exact decide_eq_true (encode_within_bounds [83, 65, 72, 79, 84, 65] (by norm_num) w hw)

/-- **C9.** Encoding is idempotent: running
`convertMessageStringToSegments` a second time on the same message, over
the array the first run produced, yields bit-identical array contents and
the same `lengthOfMessage`. -/
theorem encode_idempotent (msg : List Nat) :
    convertMessageStringToSegments msg
        (convertMessageStringToSegments msg (fun _ => 0)).arr =
      convertMessageStringToSegments msg (fun _ => 0) := by
  show EncResult.mk _ _ = EncResult.mk _ _
  have harr : (fun j => applyStores (applyStores (fun _ => 0) (encodeStores msg))
      (encodeStores msg) j) = applyStores (fun _ => 0) (encodeStores msg) := by
    funext j
    rw [applyStores_apply (applyStores (fun _ => 0) (encodeStores msg)) (encodeStores msg) j,
        applyStores_apply (fun _ => 0) (encodeStores msg) j]
    cases lastVal (encodeStores msg) j <;> rfl
  exact congrArg (fun a => EncResult.mk a (segmentCount msg)) harr

/-- **C10.** Every one of the 3 stroke frames of every supported letter is
a nonzero byte: wherever a letter 65–90 occurs in the message, the three
slots of its glyph hold nonzero values while the two spacer slots after it
are zero — so consecutive letters are always separated by blank output,
and the all-zero frames of an encoded message are exactly the space-glyph
and spacer frames. -/
theorem letter_strokes_nonzero (pre rest : List Nat) (c : Nat)
    (h1 : 65 ≤ c) (h2 : c ≤ 90) :
    0 < letterSegments (pre ++ c :: rest) (encodeFrom 0 pre).2 ∧
    0 < letterSegments (pre ++ c :: rest) ((encodeFrom 0 pre).2 + 1) ∧
    0 < letterSegments (pre ++ c :: rest) ((encodeFrom 0 pre).2 + 2) ∧
    letterSegments (pre ++ c :: rest) ((encodeFrom 0 pre).2 + 3) = 0 ∧
    letterSegments (pre ++ c :: rest) ((encodeFrom 0 pre).2 + 4) = 0 := by
  obtain ⟨r0, r1, r2, hl, e0, e1, e2, e3, e4, _⟩ :=
    letter_window pre rest c h1 h2
  have hpos := letterTriple_pos c r0 r1 r2 hl
  rw [e0, e1, e2]
  exact ⟨hpos.1, hpos.2.1, hpos.2.2, e3, e4⟩

/-- Witness for C10: `'T'` (84) as the only character. -/
theorem letter_strokes_nonzero_witness :
    0 < letterSegments [84] 0 ∧
    0 < letterSegments [84] 1 ∧
    0 < letterSegments [84] 2 ∧
    letterSegments [84] 3 = 0 ∧
    letterSegments [84] 4 = 0 :=
  letter_strokes_nonzero [] [] 84 (by norm_num) (by norm_num)

/-! ## Claim about the DisplaySequencer -/

/-- The countdown loop of `runLEDSequence` visits exactly the indices
`lengthOfMessage - 1` down to `0`, in that order. -/
lemma runFrames_eq_reverse (segs : Nat → Nat) (tps : Int) (n : Nat) :
    runFrames segs tps n =
      (((List.range n).reverse.map
          (fun i => [Event.out (segs i), Event.wait tps]))).flatten := by
  induction n with
  | zero => rfl
  | succ n ih =>
    rw [runFrames, List.range_succ, List.reverse_append]
    simp [ih]

/-- **C7.** When `isSequenceRunning` is set, the dispatch loop in `main`
runs `runLEDSequence`, which renders the frame sequence in reverse order —
index `lengthOfMessage - 1` down to `0` — outputting each frame and then
busy-waiting `timePerSegment` per frame; after the loop the output is
forced to all-zero (`PORTC = 0`), and the controller then clears
`isSequenceRunning`. -/
theorem mainStep_renders_reverse (st : WandState) (segs : Nat → Nat)
    (h : st.isSequenceRunning = true) :
    (mainStep segs st).1 =
      ((((List.range st.lengthOfMessage).reverse.map
          (fun i => [Event.out (segs i), Event.wait st.timePerSegment]))).flatten)
        ++ [Event.out 0] ∧
    (mainStep segs st).2.isSequenceRunning = false := by
  rw [mainStep, if_pos h]
  exact ⟨by rw [runLEDSequenceTrace, runFrames_eq_reverse], rfl⟩

/-- Witness for C7: a running state with 2 frames and `timePerSegment`
100; the trace is frame 1, delay, frame 0, delay, then the all-zero
output, and the flag ends cleared. -/
theorem mainStep_renders_reverse_witness :
    (mainStep (fun i => i + 1) ⟨100, 0, true, 0, 2⟩).1 =
      ((((List.range 2).reverse.map
          (fun i => [Event.out ((fun i => i + 1) i), Event.wait 100]))).flatten)
        ++ [Event.out 0] ∧
    (mainStep (fun i => i + 1) ⟨100, 0, true, 0, 2⟩).2.isSequenceRunning = false :=
  mainStep_renders_reverse ⟨100, 0, true, 0, 2⟩ (fun i => i + 1) rfl

end LEDWand
